import Mathlib

/-!
Verification of the weave-cdk core (src/index.js) against its specification.

The file shallowly embeds the text-processing and task-lifecycle layer of the
repository: the Call Rewriter (`use` / `transform`), the Tokenizing Normalizer
(`normalize`), result reconstruction (`reconstruct`), the task lifecycle
(`run` / `resume` over an explicit storage map and an engine oracle), the
Schema Normalizer (`toSafeIdentifier`, `deriveOperations`, `normalizeNode`,
`useNodesRegistry`) and the options branch of the Type Declaration Generator
(`tsTypeForParam`).  JavaScript strings are `String` / `List Char`; the
module-level mutable `specs` registry is passed explicitly; `Map`-backed
storage is a function `String → Option Snapshot`; regex matching of the one
fixed pattern shape `name\.call\s*\(([^)]*?)\)` is implemented directly as a
left-to-right scanner with the same semantics (leftmost, non-overlapping
matches, capture up to the first closing parenthesis).
-/

namespace WeaveCdk

/-! ## JavaScript string helpers -/

/-- The ECMAScript whitespace set used by both `\s` and `String.prototype.trim`:
WhiteSpace (TAB, VT, FF, SP, NBSP, ZWNBSP, Unicode Zs) and LineTerminator
(LF, CR, LS, PS). -/
def jsSpace (c : Char) : Bool :=
  c.val == 9 || c.val == 10 || c.val == 11 || c.val == 12 || c.val == 13 || c.val == 32 ||
  c.val == 0xa0 || c.val == 0x1680 || (0x2000 ≤ c.val && c.val ≤ 0x200a) ||
  c.val == 0x2028 || c.val == 0x2029 || c.val == 0x202f || c.val == 0x205f ||
  c.val == 0x3000 || c.val == 0xfeff

/-- JavaScript `String.prototype.trim` on a character list. -/
def jsTrimL (s : List Char) : List Char :=
  ((s.dropWhile jsSpace).reverse.dropWhile jsSpace).reverse

/-- JavaScript `String.prototype.trim`. -/
def jsTrim (s : String) : String := ⟨jsTrimL s.data⟩

/-! ## Call Rewriter (`use` / `transform`)

A registered method pattern.  In the source, `use` builds for each method the
regex `escapeRegExp(name)\.<parts joined by \.>\s*\(([^)]*?)\)`; since every
fragment is regex-escaped, the part before `\s*` is the literal text
`name ++ "." ++ callPath`. -/

structure MPat where
  callPath : String
  urlPath : String
deriving DecidableEq, Repr

/-- A registered Spec: `{ name, base, patterns }` as pushed by `use`. -/
structure Spec where
  name : String
  base : String
  patterns : List MPat
deriving DecidableEq, Repr

/-- The literal text part of the pattern regex for spec `name` and a method
call path. -/
def litOf (name call : String) : List Char := (name ++ "." ++ call).data

/-- Strip an exact literal from the front of `s` (regex literal matching). -/
def dropLit : List Char → List Char → Option (List Char)
  | [], s => some s
  | _ :: _, [] => none
  | a :: as, b :: bs => if a = b then dropLit as bs else none

/-- The lazy capture `([^)]*?)\)`: split at the first `')'`, returning the
characters before it and the rest after it; fails if there is none. -/
def splitRP : List Char → Option (List Char × List Char)
  | [] => none
  | c :: rest =>
    if c = ')' then some ([], rest)
    else (splitRP rest).map (fun p => (c :: p.1, p.2))

/-- Try to match the pattern `lit\s*\(([^)]*?)\)` at the start of `s`,
returning the captured argument text and the remainder after the match. -/
def matchAt (lit : List Char) (s : List Char) : Option (List Char × List Char) :=
  (dropLit lit s).bind fun r1 =>
    match r1.dropWhile jsSpace with
    | [] => none
    | c :: r3 => if c = '(' then splitRP r3 else none

/-- Replacement text produced for one match, from `transform`:
trimmed-empty arguments give a plain request, otherwise the trimmed argument
source text is re-embedded verbatim inside an array literal. -/
def replacement (base urlPath : String) (cap : List Char) : List Char :=
  let argsStr := jsTrimL cap
  if argsStr = [] then
    ("fetch(\"" ++ base ++ "/" ++ urlPath ++ "\")").data
  else
    ("fetch(\"" ++ base ++ "/" ++ urlPath ++ "?args=\"+encodeURIComponent(JSON.stringify([").data
      ++ argsStr ++ ("])))").data

/-- One global-regex replacement pass (`result.replace(regex, fn)`): scan left
to right, replace each non-overlapping match, continue after it.  `fuel`
bounds the recursion; `s.length + 1` is always enough because every match
consumes at least one character. -/
def rewriteGo (lit : List Char) (base urlPath : String) : Nat → List Char → List Char
  | 0, s => s
  | _ + 1, [] => []
  | fuel + 1, c :: rest =>
    match matchAt lit (c :: rest) with
    | some (cap, r) => replacement base urlPath cap ++ rewriteGo lit base urlPath fuel r
    | none => c :: rewriteGo lit base urlPath fuel rest

/-- Replace all matches of one registered pattern. -/
def rewriteP (name base : String) (p : MPat) (s : List Char) : List Char :=
  rewriteGo (litOf name p.callPath) base p.urlPath (s.length + 1) s

/-- `transform` on a character list: for every spec, for every pattern,
replace all matches. -/
def transformL (specs : List Spec) (code : List Char) : List Char :=
  specs.foldl (fun acc sp => sp.patterns.foldl (fun a p => rewriteP sp.name sp.base p a) acc) code

/-- `transform(code)`: rewrite registered SDK calls into fetch() calls. -/
def transform (specs : List Spec) (code : String) : String :=
  ⟨transformL specs code.data⟩

/-- A `methods` entry passed to `use`: either a plain string or an object
`{call, path?}`. -/
inductive MethodSpec where
  | str (m : String)
  | obj (call : String) (path : Option String)
deriving DecidableEq, Repr

/-- Strip a single trailing `'/'` (`endpoint.replace(/\/$/, '')`). -/
def stripTrailSlash (s : String) : String :=
  if s.data.getLast? = some '/' then ⟨s.data.dropLast⟩ else s

/-- Strip a single leading `'/'` (`path.replace(/^\//, '')`). -/
def stripLeadSlash (s : String) : String :=
  match s.data with
  | '/' :: r => ⟨r⟩
  | _ => s

/-- Insert into a list sorted by descending `urlPath` length, before any
entry of equal length: since the inserted element precedes the already-sorted
tail in the input, this reproduces the stable order of `Array.prototype.sort`
with comparator `(a, b) => b.urlPath.length - a.urlPath.length`. -/
def insDesc (x : MPat) : List MPat → List MPat
  | [] => [x]
  | y :: ys => if x.urlPath.length < y.urlPath.length then y :: insDesc x ys else x :: y :: ys

/-- Stable sort by descending `urlPath` length. -/
def sortPats : List MPat → List MPat
  | [] => []
  | x :: xs => insDesc x (sortPats xs)

/-- `use(spec, endpoint)`: build the registered Spec (the source pushes it
onto the module-level `specs` array; the registry is explicit here). -/
def use (name : String) (methods : List MethodSpec) (endpoint : String) : Spec :=
  let base := stripTrailSlash endpoint
  let pats := methods.map (fun m =>
    let call := match m with | .str s => s | .obj c _ => c
    let path := match m with | .str s => s | .obj c p => p.getD c
    MPat.mk call (stripLeadSlash path))
  ⟨name, base, sortPats pats⟩

/-- Does any match of the pattern occur anywhere in `s`? -/
def hasMatchGo (lit : List Char) : List Char → Bool
  | [] => false
  | c :: rest => (matchAt lit (c :: rest)).isSome || hasMatchGo lit rest

/-- Does any registered pattern of any spec match anywhere in `code`? -/
def hasMatchAny (specs : List Spec) (code : String) : Bool :=
  specs.any (fun sp => sp.patterns.any (fun p => hasMatchGo (litOf sp.name p.callPath) code.data))

/-! ### Rewriter lemmas -/

theorem dropLit_append (lit r : List Char) : dropLit lit (lit ++ r) = some r := by
  induction lit with
  | nil => rfl
  | cons a as ih => simp [dropLit, ih]

theorem splitRP_no_rp (args : List Char) (h : ')' ∉ args) :
    splitRP (args ++ [')']) = some (args, []) := by
  induction args with
  | nil => rfl
  | cons c cs ih =>
    simp only [List.mem_cons, not_or] at h
    simp [splitRP, Ne.symm h.1, ih h.2]

theorem length_dropWhile_le (p : Char → Bool) (l : List Char) :
    (l.dropWhile p).length ≤ l.length := by
  induction l with
  | nil => simp [List.dropWhile]
  | cons c cs ih =>
    by_cases h : p c
    · simp only [List.dropWhile, h]
      exact Nat.le_succ_of_le ih
    · simp [List.dropWhile, h]

theorem splitRP_length {s cap r : List Char} (h : splitRP s = some (cap, r)) :
    r.length ≤ s.length := by
  induction s generalizing cap r with
  | nil => simp [splitRP] at h
  | cons c cs ih =>
    simp only [splitRP] at h
    split at h
    · simp only [Option.some.injEq, Prod.mk.injEq] at h
      obtain ⟨_, h2⟩ := h
      subst h2
      simp only [List.length_cons]
      exact Nat.le_succ _
    · rw [Option.map_eq_some'] at h
      obtain ⟨⟨cap', r'⟩, hp, he⟩ := h
      simp only [Option.some.injEq, Prod.mk.injEq] at he
      obtain ⟨_, h2⟩ := he
      subst h2
      exact Nat.le_succ_of_le (ih hp)

theorem dropLit_length {lit s r : List Char} (h : dropLit lit s = some r) :
    r.length ≤ s.length := by
  induction lit generalizing s with
  | nil =>
    simp [dropLit] at h
    simp [h]
  | cons a as ih =>
    cases s with
    | nil => simp [dropLit] at h
    | cons b bs =>
      simp only [dropLit] at h
      split at h
      · exact Nat.le_succ_of_le (ih h)
      · cases h

theorem matchAt_length {lit s cap r : List Char} (h : matchAt lit s = some (cap, r)) :
    r.length < s.length := by
  unfold matchAt at h
  cases h1 : dropLit lit s with
  | none => rw [h1] at h; simp at h
  | some r1 =>
    rw [h1, Option.some_bind] at h
    have hr1 : r1.length ≤ s.length := dropLit_length h1
    cases h2 : r1.dropWhile jsSpace with
    | nil => rw [h2] at h; simp at h
    | cons c r3 =>
      rw [h2] at h
      have hr2 : r3.length + 1 ≤ r1.length := by
        have hlen := length_dropWhile_le jsSpace r1
        rw [h2] at hlen
        simpa using hlen
      have h' : (if c = '(' then splitRP r3 else none) = some (cap, r) := h
      by_cases hc : c = '('
      · rw [if_pos hc] at h'
        have := splitRP_length h'
        omega
      · rw [if_neg hc] at h'
        simp at h'

/-- If no match occurs anywhere in `s`, a replacement pass returns it
unchanged (for every fuel value). -/
theorem rewriteGo_of_no_match (lit : List Char) (base urlPath : String)
    (fuel : Nat) (s : List Char) (h : hasMatchGo lit s = false) :
    rewriteGo lit base urlPath fuel s = s := by
  induction fuel generalizing s with
  | zero => rfl
  | succ n ih =>
    cases s with
    | nil => rfl
    | cons c rest =>
      simp only [hasMatchGo, Bool.or_eq_false_iff] at h
      cases hm : matchAt lit (c :: rest) with
      | some p =>
        rw [hm] at h
        simp at h
      | none =>
        simp only [rewriteGo, hm]
        rw [ih rest h.2]

theorem rewriteP_of_no_match (name base : String) (p : MPat) (s : List Char)
    (h : hasMatchGo (litOf name p.callPath) s = false) :
    rewriteP name base p s = s :=
  rewriteGo_of_no_match _ _ _ _ _ h

theorem foldl_rewriteP_of_no_match (name base : String) (pats : List MPat) (code : List Char)
    (h : ∀ p ∈ pats, hasMatchGo (litOf name p.callPath) code = false) :
    pats.foldl (fun a p => rewriteP name base p a) code = code := by
  induction pats with
  | nil => rfl
  | cons p ps ihp =>
    simp only [List.foldl_cons]
    rw [rewriteP_of_no_match name base p code (h p (List.mem_cons_self _ _))]
    exact ihp (fun q hq => h q (List.mem_cons_of_mem _ hq))

/-- If no registered pattern matches anywhere in `code`, `transform` is the
identity on it. -/
theorem transformL_of_no_match (specs : List Spec) (code : List Char)
    (h : ∀ sp ∈ specs, ∀ p ∈ sp.patterns, hasMatchGo (litOf sp.name p.callPath) code = false) :
    transformL specs code = code := by
  induction specs with
  | nil => rfl
  | cons sp sps ih =>
    simp only [transformL, List.foldl_cons]
    rw [foldl_rewriteP_of_no_match sp.name sp.base sp.patterns code
      (fun p hp => h sp (List.mem_cons_self _ _) p hp)]
    exact ih (fun sp' hsp' p hp => h sp' (List.mem_cons_of_mem _ hsp') p hp)

theorem rewriteGo_nil (lit : List Char) (b u : String) (fuel : Nat) :
    rewriteGo lit b u fuel [] = [] := by
  cases fuel <;> rfl

theorem rewriteGo_exact (lit : List Char) (b u : String) (cap : List Char) (s : List Char)
    (hs : s ≠ []) (hm : matchAt lit s = some (cap, [])) (n : Nat) :
    rewriteGo lit b u (n + 1) s = replacement b u cap := by
  cases s with
  | nil => exact absurd rfl hs
  | cons c rest =>
    simp only [rewriteGo, hm]
    rw [rewriteGo_nil]
    simp

theorem matchAt_exact (lit args : List Char) (h : ')' ∉ args) :
    matchAt lit (lit ++ '(' :: (args ++ [')'])) = some (args, []) := by
  unfold matchAt
  rw [dropLit_append, Option.some_bind]
  have hdw : List.dropWhile jsSpace ('(' :: (args ++ [')'])) = '(' :: (args ++ [')']) := by
    rw [List.dropWhile_cons, if_neg (by decide)]
  rw [hdw]
  show (if '(' = '(' then splitRP (args ++ [')']) else none) = some (args, [])
  rw [if_pos rfl, splitRP_no_rp args h]

/-! ### Claim theorems: C5 and C8 -/

/-- The registry and script of the idempotence counterexample: one spec named
`a` with a single method `b`, registered against endpoint `u`. -/
def c5Specs : List Spec := [use "a" [.str "b"] "u"]

/-- A script whose captured argument text embeds the registered call prefix
`a.b(` (the lazy `[^)]*?` capture stops at the first `')'`). -/
def c5Script : String := "a.b(a.b(1)"

/-- C5 counterexample: applying the Call Rewriter twice does not yield the
same output as applying it once.  On `a.b(a.b(1)` the first pass captures
`a.b(1` as the argument text and re-embeds it in its replacement, which the
registered pattern matches again on the second pass. -/
theorem c5_transform_not_idempotent :
    transform c5Specs (transform c5Specs c5Script) ≠ transform c5Specs c5Script := by
  decide

/-- C5 (amended): rewriting is idempotent whenever no registered pattern
matches the once-rewritten output — the second pass then returns it
unchanged.  (In general, replacement text can be matched again when a
captured argument text embeds a registered dotted-call prefix.) -/
theorem c5_amended_idempotent (specs : List Spec) (s : String)
    (h : hasMatchAny specs (transform specs s) = false) :
    transform specs (transform specs s) = transform specs s := by
  unfold hasMatchAny at h
  rw [List.any_eq_false] at h
  show (⟨transformL specs (transformL specs s.data)⟩ : String) = ⟨transformL specs s.data⟩
  congr 1
  apply transformL_of_no_match
  intro sp hsp p hp
  have hsp' := h sp hsp
  rw [Bool.not_eq_true, List.any_eq_false] at hsp'
  have := hsp' p hp
  rwa [Bool.not_eq_true] at this

/-- C5 witness for the amended theorem at a concrete registry and script. -/
theorem c5_amended_witness :
    hasMatchAny c5Specs (transform c5Specs "x") = false ∧
    transform c5Specs (transform c5Specs "x") = transform c5Specs "x" :=
  ⟨by decide, c5_amended_idempotent c5Specs "x" (by decide)⟩

/-- C8: for a match of a registered dotted call pattern, the replacement is a
request expression with no query string when the captured (trimmed) argument
text is empty, and otherwise targets `<base>/<urlPath>?args=` with the
trimmed original argument source text re-embedded verbatim inside an array
literal whose JSON encoding is URL-encoded at run time. -/
theorem c8_replacement_shape (name call base urlPath args : String)
    (hnp : ')' ∉ args.data) :
    (jsTrimL args.data = [] →
      transform [⟨name, base, [⟨call, urlPath⟩]⟩] (name ++ "." ++ call ++ "(" ++ args ++ ")")
        = "fetch(\"" ++ base ++ "/" ++ urlPath ++ "\")")
    ∧ (jsTrimL args.data ≠ [] →
      transform [⟨name, base, [⟨call, urlPath⟩]⟩] (name ++ "." ++ call ++ "(" ++ args ++ ")")
        = "fetch(\"" ++ base ++ "/" ++ urlPath ++ "?args=\"+encodeURIComponent(JSON.stringify(["
            ++ (⟨jsTrimL args.data⟩ : String) ++ "])))") := by
  have hdata : (name ++ "." ++ call ++ "(" ++ args ++ ")").data
      = litOf name call ++ '(' :: (args.data ++ [')']) := by
    simp [litOf, String.data_append, List.append_assoc]
  have hm : matchAt (litOf name call) ((name ++ "." ++ call ++ "(" ++ args ++ ")").data)
      = some (args.data, []) := by
    rw [hdata]
    exact matchAt_exact _ _ hnp
  have hne : (name ++ "." ++ call ++ "(" ++ args ++ ")").data ≠ [] := by
    rw [hdata]
    simp [litOf]
  have htr : transform [⟨name, base, [⟨call, urlPath⟩]⟩] (name ++ "." ++ call ++ "(" ++ args ++ ")")
      = ⟨replacement base urlPath args.data⟩ := by
    show (⟨rewriteGo (litOf name call) base urlPath _ _⟩ : String) = _
    rw [rewriteGo_exact _ _ _ _ _ hne hm]
  constructor
  · intro hempty
    rw [htr]
    show (⟨replacement base urlPath args.data⟩ : String)
      = ⟨("fetch(\"" ++ base ++ "/" ++ urlPath ++ "\")").data⟩
    congr 1
    rw [replacement]
    simp only [hempty, if_pos]
  · intro hne'
    rw [htr]
    show (⟨replacement base urlPath args.data⟩ : String)
      = ⟨("fetch(\"" ++ base ++ "/" ++ urlPath ++ "?args=\"+encodeURIComponent(JSON.stringify(["
          ++ (⟨jsTrimL args.data⟩ : String) ++ "])))").data⟩
    congr 1
    rw [replacement]
    simp only [hne', if_neg]
    simp [String.data_append]

/-- C8 witness at a concrete spec and argument text. -/
theorem c8_witness :
    (')' ∉ "1, 2".data) ∧
    ((jsTrimL ("1, 2" : String).data = [] →
      transform [⟨"api", "https://x", [⟨"users.create", "users.create"⟩]⟩]
          ("api" ++ "." ++ "users.create" ++ "(" ++ "1, 2" ++ ")")
        = "fetch(\"" ++ "https://x" ++ "/" ++ "users.create" ++ "\")")
    ∧ (jsTrimL ("1, 2" : String).data ≠ [] →
      transform [⟨"api", "https://x", [⟨"users.create", "users.create"⟩]⟩]
          ("api" ++ "." ++ "users.create" ++ "(" ++ "1, 2" ++ ")")
        = "fetch(\"" ++ "https://x" ++ "/" ++ "users.create"
            ++ "?args=\"+encodeURIComponent(JSON.stringify(["
            ++ (⟨jsTrimL ("1, 2" : String).data⟩ : String) ++ "])))")) :=
  ⟨by decide, c8_replacement_shape "api" "users.create" "https://x" "users.create" "1, 2" (by decide)⟩

/-! ## Tokenizing Normalizer (`normalize`)

The scanner state of the source loop: `inString`, the active quote character
`stringChar`, and `inTemplate`.  The loop updates the flags from the current
character (with a single-character escape lookback on the previous input
character), then — using the updated flags — replaces a newline outside both
string contexts by a statement terminator when the heuristic condition on the
already-emitted text holds, dropping the newline otherwise. -/

structure NState where
  inString : Bool
  stringChar : Char
  inTemplate : Bool
deriving DecidableEq, Repr

/-- Flag update of the scanner for one character (`prev` is the previous
character of the input, `none` at position 0). -/
def updState (st : NState) (prev : Option Char) (ch : Char) : NState :=
  if ¬st.inString ∧ ¬st.inTemplate ∧ (ch = '"' ∨ ch = Char.ofNat 39) then
    { st with inString := true, stringChar := ch }
  else if st.inString ∧ ch = st.stringChar ∧ prev ≠ some (Char.ofNat 92) then
    { st with inString := false }
  else if ¬st.inString ∧ ¬st.inTemplate ∧ ch = Char.ofNat 96 then
    { st with inTemplate := true }
  else if st.inTemplate ∧ ch = Char.ofNat 96 ∧ prev ≠ some (Char.ofNat 92) then
    { st with inTemplate := false }
  else st

/-- The terminator-insertion heuristic: the emitted text so far, trimmed, is
nonempty and does not already end with `';'`, an opening brace, or `','`. -/
def insertCond (acc : List Char) : Bool :=
  let t := jsTrimL acc
  decide (t ≠ [] ∧ t.getLast? ≠ some ';' ∧ t.getLast? ≠ some (Char.ofNat 123) ∧
    t.getLast? ≠ some ',')

/-- One iteration of the scanner loop: state is (previous char, flags,
emitted text). -/
def scanStep (s : Option Char × NState × List Char) (ch : Char) :
    Option Char × NState × List Char :=
  let st' := updState s.2.1 s.1 ch
  let acc := s.2.2
  let acc' :=
    if ¬st'.inString ∧ ¬st'.inTemplate ∧ ch = '\n' then
      (if insertCond acc then acc ++ [';'] else acc)
    else acc ++ [ch]
  (some ch, st', acc')

/-- The scanner folded over the first `i` characters of the input. -/
def scanPre (c : List Char) (i : Nat) : Option Char × NState × List Char :=
  (c.take i).foldl scanStep (none, ⟨false, Char.ofNat 0, false⟩, [])

/-- The full terminator-insertion pass of `normalize`. -/
def normScan (c : List Char) : List Char := (scanPre c c.length).2.2

/-- Scanner flags before processing position `i`. -/
def stateBefore (c : List Char) (i : Nat) : NState := (scanPre c i).2.1

/-- Emitted text before processing position `i`. -/
def accBefore (c : List Char) (i : Nat) : List Char := (scanPre c i).2.2

/-- Previous input character before processing position `i`. -/
def prevBefore (c : List Char) (i : Nat) : Option Char := (scanPre c i).1

/-! ### Scanner lemmas -/

theorem scanPre_succ (c : List Char) (i : Nat) (hi : i < c.length) :
    scanPre c (i + 1) = scanStep (scanPre c i) (c.get ⟨i, hi⟩) := by
  unfold scanPre
  rw [← List.take_concat_get' c i hi, List.foldl_concat]
  rfl

/-- While the scanner is inside a quoted string, the active quote character
is one of the two quotes (it is only ever assigned in the string-opening
branch). -/
theorem stateBefore_stringChar (c : List Char) (i : Nat) :
    (stateBefore c i).inString = true →
    (stateBefore c i).stringChar = '"' ∨ (stateBefore c i).stringChar = Char.ofNat 39 := by
  induction i with
  | zero => intro h; simp [stateBefore, scanPre] at h
  | succ n ih =>
    by_cases hn : n < c.length
    · have hst : stateBefore c (n + 1) = updState (stateBefore c n) (prevBefore c n)
          (c.get ⟨n, hn⟩) := by
        unfold stateBefore prevBefore
        rw [scanPre_succ c n hn]
        rfl
      rw [hst]
      unfold updState
      split
      · rename_i hcond
        intro _
        exact hcond.2.2
      · split
        · intro h
          simp at h
        · split
          · intro h
            exact ih h
          · split
            · intro h
              exact ih h
            · exact ih
    · have : c.take (n + 1) = c.take n := by
        rw [List.take_of_length_le (by omega), List.take_of_length_le (by omega)]
      unfold stateBefore scanPre
      rw [this]
      exact ih

/-- Processing a newline never changes the scanner flags, given the active
quote character invariant. -/
theorem updState_newline (st : NState) (p : Option Char)
    (h : st.inString = true → st.stringChar ≠ '\n') :
    updState st p '\n' = st := by
  have h1 : ¬(¬st.inString = true ∧ ¬st.inTemplate = true ∧
      ('\n' = '"' ∨ '\n' = Char.ofNat 39)) := by
    rintro ⟨_, _, h' | h'⟩ <;> exact absurd h' (by decide)
  have h2 : ¬(st.inString = true ∧ '\n' = st.stringChar ∧ p ≠ some (Char.ofNat 92)) := by
    rintro ⟨ha, hb, _⟩
    exact h ha hb.symm
  have h3 : ¬(¬st.inString = true ∧ ¬st.inTemplate = true ∧ '\n' = Char.ofNat 96) := by
    rintro ⟨_, _, h'⟩
    exact absurd h' (by decide)
  have h4 : ¬(st.inTemplate = true ∧ '\n' = Char.ofNat 96 ∧ p ≠ some (Char.ofNat 92)) := by
    rintro ⟨_, h', _⟩
    exact absurd h' (by decide)
  unfold updState
  rw [if_neg h1, if_neg h2, if_neg h3, if_neg h4]

/-- C6: the Tokenizing Normalizer never inserts a statement terminator at a
newline that lies inside a single/double-quoted string or inside a template
literal (per the scanner's single-character escape lookback); at a newline
outside both contexts it emits either a terminator or nothing, per the
heuristic condition on the already-emitted text. -/
theorem c6_normalizer_string_safety (c : List Char) (i : Nat) (hi : i < c.length)
    (hnl : c.get ⟨i, hi⟩ = '\n') :
    ((stateBefore c i).inString = true ∨ (stateBefore c i).inTemplate = true →
      accBefore c (i + 1) = accBefore c i ++ ['\n'])
    ∧ ((stateBefore c i).inString = false → (stateBefore c i).inTemplate = false →
      accBefore c (i + 1) = accBefore c i ++ (if insertCond (accBefore c i) then [';'] else [])) := by
  have hchar : (stateBefore c i).inString = true → (stateBefore c i).stringChar ≠ '\n' := by
    intro h
    rcases stateBefore_stringChar c i h with h' | h' <;> rw [h'] <;> decide
  have hupd : ∀ p, updState (scanPre c i).2.1 p '\n' = (scanPre c i).2.1 :=
    fun p => updState_newline _ p hchar
  have hacc : accBefore c (i + 1) =
      (if ¬(stateBefore c i).inString ∧ ¬(stateBefore c i).inTemplate then
        (if insertCond (accBefore c i) then accBefore c i ++ [';'] else accBefore c i)
      else accBefore c i ++ ['\n']) := by
    unfold accBefore stateBefore
    rw [scanPre_succ c i hi, hnl]
    show (scanStep (scanPre c i) '\n').2.2 = _
    unfold scanStep
    simp only [hupd, eq_self_iff_true, and_true]
  constructor
  · intro h
    rw [hacc, if_neg]
    rintro ⟨h1, h2⟩
    rcases h with h | h
    · exact h1 (by simp [h])
    · exact h2 (by simp [h])
  · intro h1 h2
    rw [hacc, if_pos ⟨by simp [h1], by simp [h2]⟩]
    by_cases hc : insertCond (accBefore c i)
    · rw [if_pos hc, if_pos hc]
    · rw [if_neg hc, if_neg hc]
      simp

/-- C6 witness: in the script `"x` LF `y"` the newline at position 2 lies
inside a double-quoted string and is emitted verbatim. -/
theorem c6_witness :
    (2 : Nat) < (['"', 'x', '\n', 'y', '"'] : List Char).length ∧
    (['"', 'x', '\n', 'y', '"'] : List Char).get ⟨2, by decide⟩ = '\n' ∧
    ((stateBefore ['"', 'x', '\n', 'y', '"'] 2).inString = true ∨
      (stateBefore ['"', 'x', '\n', 'y', '"'] 2).inTemplate = true →
      accBefore ['"', 'x', '\n', 'y', '"'] 3 = accBefore ['"', 'x', '\n', 'y', '"'] 2 ++ ['\n']) :=
  ⟨by decide, by decide,
    (c6_normalizer_string_safety ['"', 'x', '\n', 'y', '"'] 2 (by decide) (by decide)).1⟩

/-! ## Return-shape extraction and `normalize`'s result -/

/-- Strip the trailing run of semicolons (`.replace(/;*$/, '')`). -/
def dropTrailingSemis (l : List Char) : List Char :=
  (l.reverse.dropWhile (fun c => c = ';')).reverse

/-- JavaScript `String.prototype.split(',')`. -/
def splitComma : List Char → List (List Char)
  | [] => [[]]
  | c :: rest =>
    if c = ',' then [] :: splitComma rest
    else
      match splitComma rest with
      | [] => [[c]]
      | g :: gs => (c :: g) :: gs

/-- The greatest index at which `"return "` occurs in `s`
(`lastIndexOf('return ')`), or `none` when absent (`includes` fails). -/
def lastRetIdx (s : List Char) : Option Nat :=
  ((List.range (s.length + 1)).filter
    (fun i => ("return ".data).isPrefixOf (s.drop i))).getLast?

/-- Result of `normalize`: the rewritten single-statement code and the
extracted return-shape key list. -/
structure NormResult where
  code : String
  keys : Option (List String)
deriving DecidableEq, Repr

/-- `normalize(code)`: trim, transform SDK calls, insert terminators at
newlines, then rewrite a trailing `return` into an expression, extracting the
ordered key list when the return expression is a colon-free brace shorthand. -/
def normalize (specs : List Spec) (code : String) : NormResult :=
  let scanned := normScan (transform specs (jsTrim code)).data
  match lastRetIdx scanned with
  | none => ⟨⟨scanned⟩, none⟩
  | some i =>
    let expr := jsTrimL (dropTrailingSemis (scanned.drop (i + 7)))
    if expr.head? = some (Char.ofNat 123) ∧ expr.getLast? = some (Char.ofNat 125) then
      let inner := jsTrimL ((expr.drop 1).dropLast)
      if inner ≠ [] ∧ ':' ∉ inner then
        let keys := ((splitComma inner).map (fun l => (⟨jsTrimL l⟩ : String))).filter
          (fun s => s ≠ "")
        ⟨⟨scanned.take i ++ ('[' :: (String.intercalate ", " keys).data ++ [']'])⟩, some keys⟩
      else ⟨⟨scanned.take i ++ expr⟩, none⟩
    else ⟨⟨scanned.take i ++ expr⟩, none⟩

/-! ## Result reconstruction (`reconstruct`)

The engine returns a positional result; values inside it are abstract.  An
engine result is either an array (`Array.isArray`) or any other value; a
reconstructed result is either the value passed through or a keyed object,
built with `Object.fromEntries` semantics (later duplicate keys overwrite the
earlier value in place). -/

inductive RVal (V : Type) where
  | jarr (xs : List V)
  | jother (v : V)
deriving DecidableEq, Repr

inductive RecRes (V : Type) where
  | plain (r : RVal V)
  | jobj (fs : List (String × Option V))
deriving DecidableEq, Repr

/-- `Map.set` semantics used by `Object.fromEntries`: update an existing key
in place, else append. -/
def setEntry {α : Type} (fs : List (String × α)) (k : String) (v : α) : List (String × α) :=
  if fs.any (fun p => p.1 = k) then fs.map (fun p => if p.1 = k then (k, v) else p)
  else fs ++ [(k, v)]

/-- `Object.fromEntries`. -/
def fromEntries {α : Type} (ps : List (String × α)) : List (String × α) :=
  ps.foldl (fun acc p => setEntry acc p.1 p.2) []

/-- Property lookup on an object. -/
def objGet {α : Type} (fs : List (String × α)) (k : String) : Option α :=
  (fs.find? (fun p => p.1 = k)).map Prod.snd

/-- Reading a property of a reconstructed object: a missing property and a
stored `undefined` both read as `undefined`. -/
def readKey {V : Type} (fs : List (String × Option V)) (k : String) : Option V :=
  match objGet fs k with
  | some v => v
  | none => none

/-- `keys.map((k, i) => [k, result[i]])`: pair each key with the value at its
index (`undefined` past the end). -/
def keyPairs {V : Type} (xs : List V) : List String → Nat → List (String × Option V)
  | [], _ => []
  | k :: ks, i => (k, xs.get? i) :: keyPairs xs ks (i + 1)

/-- `reconstruct(result, keys)`: pass through unless `keys` is present and the
result is an array; otherwise zip the stored keys over the positional values. -/
def reconstruct {V : Type} (r : RVal V) (keys : Option (List String)) : RecRes V :=
  match keys, r with
  | none, r => .plain r
  | some _, .jother v => .plain (.jother v)
  | some ks, .jarr xs => .jobj (fromEntries (keyPairs xs ks 0))

/-! ### Reconstruction lemmas and C4 -/

theorem keyPairs_shift {V : Type} (x : V) (xs : List V) (ks : List String) (i : Nat) :
    keyPairs (x :: xs) ks (i + 1) = keyPairs xs ks i := by
  induction ks generalizing i with
  | nil => rfl
  | cons k ks ih => simp [keyPairs, List.get?_cons_succ, ih]

theorem keyPairs_fst {V : Type} (xs : List V) (ks : List String) (i : Nat) :
    (keyPairs xs ks i).map Prod.fst = ks := by
  induction ks generalizing i with
  | nil => rfl
  | cons k ks ih => simp [keyPairs, ih]

theorem foldl_setEntry_nodup {α : Type} (ps : List (String × α)) :
    ∀ acc : List (String × α), ((acc ++ ps).map Prod.fst).Nodup →
    ps.foldl (fun a p => setEntry a p.1 p.2) acc = acc ++ ps := by
  induction ps with
  | nil => intro acc _; simp
  | cons p ps ih =>
    intro acc h
    have hk : p.1 ∉ acc.map Prod.fst := by
      rw [List.map_append, List.nodup_append] at h
      intro hmem
      exact h.2.2 hmem (by simp)
    have hcond : ¬((acc.any fun q => q.1 = p.1) = true) := by
      simp only [List.any_eq_true, decide_eq_true_eq, not_exists, not_and]
      intro q hq hEq
      exact hk (by
        rw [← hEq]
        exact List.mem_map_of_mem Prod.fst hq)
    have hset : setEntry acc p.1 p.2 = acc ++ [p] := by
      unfold setEntry
      rw [if_neg hcond]
    rw [List.foldl_cons, hset, ih (acc ++ [p]) (by simpa using h)]
    simp

/-- With pairwise-distinct keys, `Object.fromEntries` keeps the pair list
unchanged. -/
theorem fromEntries_nodup {α : Type} (ps : List (String × α))
    (h : (ps.map Prod.fst).Nodup) : fromEntries ps = ps := by
  unfold fromEntries
  simpa using foldl_setEntry_nodup ps [] (by simpa using h)

theorem readKey_keyPairs {V : Type} (ks : List String) (xs : List V)
    (hnd : ks.Nodup) (hlen : ks.length = xs.length) :
    ks.map (readKey (keyPairs xs ks 0)) = xs.map some := by
  induction ks generalizing xs with
  | nil =>
    cases xs with
    | nil => rfl
    | cons x xs => simp at hlen
  | cons k ks ih =>
    cases xs with
    | nil => simp at hlen
    | cons x xs =>
      have hk : k ∉ ks := (List.nodup_cons.mp hnd).1
      have hnd' : ks.Nodup := (List.nodup_cons.mp hnd).2
      have hpairs : keyPairs (x :: xs) (k :: ks) 0
          = (k, some x) :: keyPairs xs ks 0 := by
        show (k, (x :: xs).get? 0) :: keyPairs (x :: xs) ks 1 = _
        rw [keyPairs_shift]
        rfl
      rw [hpairs]
      simp only [List.map_cons]
      have hhead : readKey ((k, some x) :: keyPairs xs ks 0) k = some x := by
        unfold readKey objGet
        rw [List.find?_cons_of_pos _ (by simp)]
        rfl
      have hstep : ks.map (readKey ((k, some x) :: keyPairs xs ks 0))
          = ks.map (readKey (keyPairs xs ks 0)) := by
        apply List.map_congr_left
        intro k' hk'
        unfold readKey objGet
        rw [List.find?_cons_of_neg _ (by
          simp only [decide_eq_true_eq]
          intro hEq
          exact hk (hEq ▸ hk'))]
      rw [hhead, hstep, ih xs hnd' (by simpa using hlen)]

/-- C4 counterexample: with the duplicate key list `["a", "a"]` and values
`[0, 1]`, `Object.fromEntries` keeps only the last value, so reading the keys
back yields `[1, 1]`, not the original values. -/
theorem c4_duplicate_keys_cex :
    reconstruct (RVal.jarr ([0, 1] : List Nat)) (some ["a", "a"])
      = RecRes.jobj [("a", some 1)]
    ∧ ["a", "a"].map (readKey ([("a", some 1)] : List (String × Option Nat)))
      ≠ [0, 1].map some := by
  constructor
  · decide
  · decide

/-- C4 (amended): for any duplicate-free ordered key list and any value
sequence of the same length, reconstructing and then reading the keys back in
order yields exactly the original values. -/
theorem c4_amended_roundtrip {V : Type} (ks : List String) (xs : List V)
    (hnd : ks.Nodup) (hlen : ks.length = xs.length)
    (fs : List (String × Option V))
    (hf : reconstruct (RVal.jarr xs) (some ks) = RecRes.jobj fs) :
    ks.map (readKey fs) = xs.map some := by
  have hfs : fs = fromEntries (keyPairs xs ks 0) := by
    unfold reconstruct at hf
    injection hf with h
    exact h.symm
  have hkeys : ((keyPairs xs ks 0).map Prod.fst).Nodup := by
    rw [keyPairs_fst]
    exact hnd
  rw [hfs, fromEntries_nodup _ hkeys]
  exact readKey_keyPairs ks xs hnd hlen

/-- C4 witness at the concrete keys `["a", "b"]` and values `[3, 4]`. -/
theorem c4_witness :
    (["a", "b"] : List String).Nodup
    ∧ (["a", "b"] : List String).length = ([3, 4] : List Nat).length
    ∧ reconstruct (RVal.jarr ([3, 4] : List Nat)) (some ["a", "b"])
        = RecRes.jobj [("a", some 3), ("b", some 4)]
    ∧ ["a", "b"].map (readKey [("a", some 3), ("b", some 4)]) = ([3, 4] : List Nat).map some :=
  ⟨by decide, by decide, by decide,
    c4_amended_roundtrip ["a", "b"] [3, 4] (by decide) (by decide) _ (by decide)⟩

/-! ## Task Lifecycle Manager (`run` / `resume`)

The external execution engine is an oracle: `run` consults it on the
normalized code, `resume` on the stored continuation state, the stored paused
variables and the supplied data.  A thrown exception inside the engine calls
is the `exn` outcome (the enclosing `catch` turns it into an error record);
the only failure `resume` raises to the caller is the not-found error, so the
result type is `Except`.  Storage is the key/value collaborator: `get` is
application, `set`/`del` are pointwise updates (the `Map` semantics of
`InMemoryStorage`).  The generated-id branch of `run` (`Date.now`/random) is
outside the model: the task id is the explicit argument. -/

structure Snapshot (S P : Type) where
  code : String
  keys : Option (List String)
  state : S
  pausedVars : List (String × P)
deriving DecidableEq, Repr

inductive Outcome (S F P V E : Type) where
  | pause (state : S) (vars : List (String × P)) (fetchReq : F)
  | complete (result : RVal V)
  | errorR (e : E)
  | exn (m : String)
deriving DecidableEq, Repr

inductive TaskRecord (F V E : Type) where
  | paused (id : String) (fetch : F)
  | done (id : String) (result : RecRes V)
  | errorT (id : String) (err : E ⊕ String)
deriving DecidableEq, Repr

def Store (S P : Type) := String → Option (Snapshot S P)

def setStore {S P : Type} (st : Store S P) (id : String) (snap : Snapshot S P) : Store S P :=
  fun k => if k = id then some snap else st k

def delStore {S P : Type} (st : Store S P) (id : String) : Store S P :=
  fun k => if k = id then none else st k

/-- `run(code, id)`: normalize, execute, persist on pause, reconstruct on
completion, convert engine errors and exceptions to error records. -/
def run {S F P V E : Type} (specs : List Spec) (storage : Store S P) (taskId : String)
    (code : String) (engine : String → Outcome S F P V E) :
    TaskRecord F V E × Store S P :=
  let n := normalize specs code
  match engine n.code with
  | .pause st vars fr =>
    (.paused taskId fr, setStore storage taskId ⟨n.code, n.keys, st, vars⟩)
  | .complete r => (.done taskId (reconstruct r n.keys), storage)
  | .errorR e => (.errorT taskId (.inl e), storage)
  | .exn m => (.errorT taskId (.inr m), storage)

/-- `resume(id, data)`: load the snapshot (raising the not-found failure if
absent), consult the engine with the stored state, the stored paused
variables and `data`; on a further pause overwrite the snapshot keeping the
stored `code` and `keys`; on completion, error or exception delete the
snapshot. -/
def resume {S F P V E D : Type} (storage : Store S P) (id : String) (data : D)
    (engine : S → List (String × P) → D → Outcome S F P V E) :
    Except String (TaskRecord F V E) × Store S P :=
  match storage id with
  | none => (.error ("Not found: " ++ id), storage)
  | some stored =>
    match engine stored.state stored.pausedVars data with
    | .pause st vars fr =>
      (.ok (.paused id fr), setStore storage id ⟨stored.code, stored.keys, st, vars⟩)
    | .complete r => (.ok (.done id (reconstruct r stored.keys)), delStore storage id)
    | .errorR e => (.ok (.errorT id (.inl e)), delStore storage id)
    | .exn m => (.ok (.errorT id (.inr m)), delStore storage id)

/-- A nonempty sequence of `resume` calls on one id, threading the storage:
one call per element of the list in order, then a final call with the last
data value; the result is the final call's. -/
def resumeSeq {S F P V E D : Type} (engine : S → List (String × P) → D → Outcome S F P V E)
    (storage : Store S P) (id : String) :
    List D → D → Except String (TaskRecord F V E) × Store S P
  | [], dlast => resume storage id dlast engine
  | d :: ds, dlast => resumeSeq engine (resume storage id d engine).2 id ds dlast

/-! ### Claim theorems: C1, C2, C3 -/

/-- C1: whenever a `resume` call does not report a further pause — it
reports done or an error record (engine errors and exceptions inside resume
are converted to error records after a best-effort delete), or raises the
not-found failure — the stored snapshot for that id is gone afterwards: a
storage get returns nothing. -/
theorem c1_resume_nonpause_deletes {S F P V E D : Type}
    (storage : Store S P) (id : String) (data : D)
    (engine : S → List (String × P) → D → Outcome S F P V E)
    (h : ∀ f, (resume storage id data engine).1 ≠ .ok (.paused id f)) :
    (resume storage id data engine).2 id = none := by
  cases hs : storage id with
  | none => simp [resume, hs]
  | some stored =>
    cases ho : engine stored.state stored.pausedVars data with
    | pause st vars fr =>
      exact absurd (by simp [resume, hs, ho]) (h fr)
    | complete r => simp [resume, hs, ho, delStore]
    | errorR e => simp [resume, hs, ho, delStore]
    | exn m => simp [resume, hs, ho, delStore]

/-- A concrete storage holding one snapshot under `"t"`. -/
def demoStore1 : Store Nat Nat :=
  fun k => if k = "t" then some ⟨"x", none, 0, []⟩ else none

/-- A concrete engine that always completes. -/
def demoEngineDone : Nat → List (String × Nat) → Nat → Outcome Nat Nat Nat Nat Nat :=
  fun _ _ _ => .complete (.jother 5)

/-- C1 witness: resuming the stored task `"t"` with a completing engine
leaves no snapshot behind. -/
theorem c1_witness :
    (∀ f : Nat, (resume demoStore1 "t" 0 demoEngineDone).1
      ≠ Except.ok (TaskRecord.paused "t" f))
    ∧ (resume demoStore1 "t" 0 demoEngineDone).2 "t" = none :=
  ⟨fun f h => by simp [resume, demoStore1, demoEngineDone] at h,
    c1_resume_nonpause_deletes demoStore1 "t" 0 demoEngineDone
      (fun f h => by simp [resume, demoStore1, demoEngineDone] at h)⟩

/-- C2: for an id absent from storage, `resume` raises the not-found failure
to the caller (an `Except.error`, never an error-status task record) and the
storage is returned exactly as it was — no set and no del happened. -/
theorem c2_resume_notfound {S F P V E D : Type} (storage : Store S P) (id : String)
    (data : D) (engine : S → List (String × P) → D → Outcome S F P V E)
    (h : storage id = none) :
    resume storage id data engine = (.error ("Not found: " ++ id), storage) := by
  unfold resume
  rw [h]

/-- An empty concrete storage. -/
def demoStoreEmpty : Store Nat Nat := fun _ => none

/-- C2 witness at the concrete missing id. -/
theorem c2_witness :
    demoStoreEmpty "missing-id" = none ∧
    resume demoStoreEmpty "missing-id" 0 demoEngineDone
      = (.error ("Not found: " ++ "missing-id"), demoStoreEmpty) :=
  ⟨rfl, c2_resume_notfound demoStoreEmpty "missing-id" 0 demoEngineDone rfl⟩

/-- Keys threading invariant: any sequence of resumes whose data always
pauses the engine, followed by one that completes it with `r`, ends with a
done record reconstructed with the keys of the snapshot stored at the start
of the sequence. -/
theorem resumeSeq_keys {S F P V E D : Type}
    (engine : S → List (String × P) → D → Outcome S F P V E) (id : String)
    (k : Option (List String)) (r : RVal V) (dlast : D)
    (hlast : ∀ s v, engine s v dlast = .complete r) :
    ∀ ds : List D, (∀ d ∈ ds, ∀ s v, ∃ s' v' f', engine s v d = .pause s' v' f') →
    ∀ (storage : Store S P) (snap : Snapshot S P),
      storage id = some snap → snap.keys = k →
      (resumeSeq engine storage id ds dlast).1 = .ok (.done id (reconstruct r k)) := by
  intro ds
  induction ds with
  | nil =>
    intro _ storage snap hs hk
    show (resume storage id dlast engine).1 = _
    simp [resume, hs, hlast, hk]
  | cons d ds ih =>
    intro hpause storage snap hs hk
    obtain ⟨s', v', f', he⟩ := hpause d (List.mem_cons_self _ _) snap.state snap.pausedVars
    have hres : (resume storage id d engine).2
        = setStore storage id ⟨snap.code, snap.keys, s', v'⟩ := by
      simp [resume, hs, he]
    show (resumeSeq engine (resume storage id d engine).2 id ds dlast).1 = _
    rw [hres]
    exact ih (fun d' hd' => hpause d' (List.mem_cons_of_mem _ hd'))
      (setStore storage id ⟨snap.code, snap.keys, s', v'⟩)
      ⟨snap.code, snap.keys, s', v'⟩ (by simp [setStore]) hk

/-- C3: the keys computed by the normalizer at run time are persisted with
the first paused snapshot, threaded unchanged through every pause-producing
resume, and the final done result is reconstructed with exactly those
run-time keys. -/
theorem c3_runtime_keys_used {S F P V E D : Type} (specs : List Spec)
    (storage : Store S P) (id : String) (code : String)
    (engine0 : String → Outcome S F P V E)
    (engine : S → List (String × P) → D → Outcome S F P V E)
    (ds : List D) (dlast : D) (r : RVal V) (rec0 : TaskRecord F V E) (st0 : Store S P)
    (hrun : run specs storage id code engine0 = (rec0, st0))
    (hp0 : ∃ f0, rec0 = .paused id f0)
    (hpause : ∀ d ∈ ds, ∀ s v, ∃ s' v' f', engine s v d = .pause s' v' f')
    (hlast : ∀ s v, engine s v dlast = .complete r) :
    (resumeSeq engine st0 id ds dlast).1
      = .ok (.done id (reconstruct r (normalize specs code).keys)) := by
  obtain ⟨f0, hrec0⟩ := hp0
  simp only [run] at hrun
  cases ho : engine0 (normalize specs code).code with
  | pause st vars fr =>
    rw [ho] at hrun
    have hst0 : st0 = setStore storage id
        ⟨(normalize specs code).code, (normalize specs code).keys, st, vars⟩ :=
      (Prod.mk.injEq _ _ _ _ ▸ hrun).2.symm
    exact resumeSeq_keys engine id (normalize specs code).keys r dlast hlast ds hpause st0
      ⟨(normalize specs code).code, (normalize specs code).keys, st, vars⟩
      (by rw [hst0]; simp [setStore]) rfl
  | complete r' =>
    rw [ho] at hrun
    have : rec0 = .done id (reconstruct r' (normalize specs code).keys) :=
      ((Prod.mk.injEq _ _ _ _ ▸ hrun).1).symm
    rw [hrec0] at this
    cases this
  | errorR e =>
    rw [ho] at hrun
    have : rec0 = .errorT id (.inl e) := ((Prod.mk.injEq _ _ _ _ ▸ hrun).1).symm
    rw [hrec0] at this
    cases this
  | exn m =>
    rw [ho] at hrun
    have : rec0 = .errorT id (.inr m) := ((Prod.mk.injEq _ _ _ _ ▸ hrun).1).symm
    rw [hrec0] at this
    cases this

/-- A concrete engine for the pause-once-then-complete scenario. -/
def demoEngineC3 : Nat → List (String × Nat) → Nat → Outcome Nat Nat Nat Nat Nat :=
  fun _ _ d => if d = 0 then .pause 0 [] 0 else .complete (.jother 7)

/-- A concrete engine that pauses the initial execution. -/
def demoEngine0 : String → Outcome Nat Nat Nat Nat Nat :=
  fun _ => .pause 0 [] 0

/-- C3 witness: run pauses, one further pause-resume, then a completing
resume whose result is reconstructed with the run-time keys. -/
theorem c3_witness :
    run [] demoStoreEmpty "t" "return x" demoEngine0
      = ((run [] demoStoreEmpty "t" "return x" demoEngine0).1,
         (run [] demoStoreEmpty "t" "return x" demoEngine0).2)
    ∧ (∃ f0, (run [] demoStoreEmpty "t" "return x" demoEngine0).1
        = TaskRecord.paused "t" f0)
    ∧ (resumeSeq demoEngineC3 (run [] demoStoreEmpty "t" "return x" demoEngine0).2 "t" [0] 1).1
        = .ok (.done "t" (reconstruct (RVal.jother 7) (normalize [] "return x").keys)) :=
  ⟨rfl, ⟨0, rfl⟩,
    c3_runtime_keys_used [] demoStoreEmpty "t" "return x" demoEngine0 demoEngineC3 [0] 1
      (RVal.jother 7) _ _ rfl ⟨0, rfl⟩
      (fun d hd s v => by
        simp only [List.mem_singleton] at hd
        subst hd
        exact ⟨0, [], 0, rfl⟩)
      (fun s v => rfl)⟩

/-! ## Schema Normalizer: safe identifiers -/

/-- The reserved-word list of `isReservedWord`. -/
def reservedWords : List String :=
  ["break", "case", "catch", "class", "const", "continue", "debugger", "default", "delete",
   "do", "else", "export", "extends", "finally", "for", "function", "if", "import", "in",
   "instanceof", "new", "return", "super", "switch", "this", "throw", "try", "typeof",
   "var", "void", "while", "with", "yield", "let", "enum", "await", "implements",
   "package", "protected", "static", "interface", "private", "public"]

def isReservedWord (s : String) : Bool := reservedWords.contains s

/-- First character class of the identifier regex `[A-Za-z_$]`. -/
def isIdentStart (c : Char) : Bool := c.isAlpha || c = '_' || c = '$'

/-- Continuation character class `[A-Za-z0-9_$]`. -/
def isIdentChar (c : Char) : Bool := c.isAlphanum || c = '_' || c = '$'

/-- `isValidIdentifier`: matches `^[A-Za-z_$][A-Za-z0-9_$]*$` and is not a
reserved word. -/
def isValidIdentifier (s : String) : Bool :=
  (match s.data with
   | [] => false
   | c :: rest => isIdentStart c && rest.all isIdentChar) && !isReservedWord s

/-- Maximal alphanumeric runs: `split(/[^A-Za-z0-9]+/g).filter(Boolean)`. -/
def alnumRunsGo (cur : List Char) : List Char → List (List Char)
  | [] => if cur = [] then [] else [cur.reverse]
  | c :: rest =>
    if c.isAlphanum then alnumRunsGo (c :: cur) rest
    else if cur = [] then alnumRunsGo [] rest
    else cur.reverse :: alnumRunsGo [] rest

def alnumRuns (l : List Char) : List (List Char) := alnumRunsGo [] l

/-- `p[0].toUpperCase() + p.slice(1)`. -/
def capFirst (p : List Char) : List Char :=
  match p with
  | [] => []
  | c :: rest => c.toUpper :: rest

/-- Camel-case join: the first part verbatim, later parts capitalized. -/
def camelJoin (parts : List (List Char)) : List Char :=
  match parts with
  | [] => []
  | p :: rest => p ++ (rest.map capFirst).flatten

/-- The conversion part of `toSafeIdentifier`, before uniqueness: split into
alphanumeric runs, camel-case, fall back to `op`, underscore-prefix a leading
digit, an invalid leading character (with invalid characters replaced), or a
reserved word. -/
def baseIdentifier (raw : String) : String :=
  let parts := alnumRuns raw.data
  let out1 := if parts = [] then ("op" : String).data else camelJoin parts
  let out2 := if out1 = [] then "op".data else out1
  let out3 :=
    match out2.head? with
    | some c => if c.isDigit then '_' :: out2 else out2
    | none => out2
  let out4 :=
    match out3.head? with
    | some c =>
      if isIdentStart c then out3
      else '_' :: out3.map (fun d => if isIdentChar d then d else '_')
    | none => ['_']
  let out5 := if isReservedWord ⟨out4⟩ then '_' :: out4 else out4
  ⟨out5⟩

/-- Decimal digit character. -/
def digitChar (d : Nat) : Char := Char.ofNat (48 + d)

/-- JavaScript number-to-string for naturals (decimal). -/
def natRepr (n : Nat) : String :=
  if n = 0 then "0" else ⟨((Nat.digits 10 n).map digitChar).reverse⟩

/-- The collision candidate `out + '_' + i`. -/
def candidate (out : String) (i : Nat) : String := out ++ "_" ++ natRepr i

theorem digitChar_inj_lt : ∀ a ∈ Finset.range 10, ∀ b ∈ Finset.range 10,
    digitChar a = digitChar b → a = b := by decide

theorem map_digitChar_inj (l1 l2 : List Nat) (h1 : ∀ x ∈ l1, x < 10)
    (h2 : ∀ x ∈ l2, x < 10) (h : l1.map digitChar = l2.map digitChar) : l1 = l2 := by
  induction l1 generalizing l2 with
  | nil => cases l2 <;> simp_all
  | cons a l1 ih =>
    cases l2 with
    | nil => simp at h
    | cons b l2 =>
      simp only [List.map_cons, List.cons.injEq] at h
      have ha := h1 a (by simp)
      have hb := h2 b (by simp)
      have hab := digitChar_inj_lt a (Finset.mem_range.mpr ha) b (Finset.mem_range.mpr hb) h.1
      rw [hab, ih l2 (fun x hx => h1 x (by simp [hx])) (fun x hx => h2 x (by simp [hx])) h.2]

theorem natRepr_inj_pos {m n : Nat} (hm : 0 < m) (hn : 0 < n)
    (h : natRepr m = natRepr n) : m = n := by
  unfold natRepr at h
  rw [if_neg (by omega), if_neg (by omega)] at h
  have hl := congrArg String.data h
  simp only [List.reverse_inj] at hl
  have hd : Nat.digits 10 m = Nat.digits 10 n :=
    map_digitChar_inj _ _
      (fun x hx => Nat.digits_lt_base (by norm_num) hx)
      (fun x hx => Nat.digits_lt_base (by norm_num) hx) hl
  have := congrArg (Nat.ofDigits 10) hd
  rwa [Nat.ofDigits_digits, Nat.ofDigits_digits] at this

theorem candidate_inj (out : String) {i j : Nat} (hi : 0 < i) (hj : 0 < j)
    (h : candidate out i = candidate out j) : i = j := by
  unfold candidate at h
  have hl := congrArg String.data h
  simp only [String.data_append] at hl
  have h2 := List.append_cancel_left hl
  have h4 : natRepr i = natRepr j := congrArg String.mk h2
  exact natRepr_inj_pos hi hj h4

/-- The disambiguator loop terminates: some candidate index is not yet used
(pigeonhole over the finitely many used identifiers). -/
theorem candidate_fresh_exists (out : String) (used : List String) :
    ∃ j, candidate out (j + 2) ∉ used := by
  by_contra hc
  push_neg at hc
  have hinj : Set.InjOn (fun k : Fin (used.length + 1) => candidate out (k.val + 2))
      (Finset.univ : Finset (Fin (used.length + 1))) := by
    intro k1 _ k2 _ hEq
    have := candidate_inj out (i := k1.val + 2) (j := k2.val + 2)
      (by omega) (by omega) hEq
    exact Fin.ext (by omega)
  have hcard := Finset.card_le_card_of_injOn
    (fun k : Fin (used.length + 1) => candidate out (k.val + 2))
    (fun k _ => List.mem_toFinset.mpr (hc k.val)) hinj
  have h1 : used.length + 1 ≤ used.toFinset.card := by simpa using hcard
  have h2 := List.toFinset_card_le used
  omega

/-- `toSafeIdentifier(raw, used)`: the converted identifier, with the
`while (used.has(out + '_' + i)) i++` loop (starting at 2) modeled by the
least fresh candidate index; returns the identifier and the updated set. -/
def toSafeIdentifier (raw : String) (used : List String) : String × List String :=
  let out := baseIdentifier raw
  if out ∉ used then (out, out :: used)
  else
    let u := candidate out (Nat.find (candidate_fresh_exists out used) + 2)
    (u, u :: used)

/-- `toSafeIdentifier` returns an identifier outside `used` and inserts
exactly it. -/
theorem toSafeIdentifier_fresh (raw : String) (used : List String) :
    (toSafeIdentifier raw used).1 ∉ used ∧
    (toSafeIdentifier raw used).2 = (toSafeIdentifier raw used).1 :: used := by
  unfold toSafeIdentifier
  by_cases h : baseIdentifier raw ∉ used
  · rw [if_pos h]
    exact ⟨h, rfl⟩
  · rw [if_neg h]
    exact ⟨Nat.find_spec (candidate_fresh_exists (baseIdentifier raw) used), rfl⟩

/-! ## Schema Normalizer: operation derivation -/

/-- A selector option entry (`{label?, name, description?}`). -/
structure NodeOpt where
  name : Option String
  label : Option String
  description : Option String
deriving DecidableEq, Repr

/-- An action entry; field presence (`'x' in first`) is `Option.isSome`. -/
structure Action where
  type : Option String
  name : Option String
  operation : Option String
  options : Option (List NodeOpt)
  label : Option String
  description : Option String
deriving DecidableEq, Repr

structure Operation where
  raw : String
  call : String
  path : String
  label : Option String
  description : Option String
deriving DecidableEq, Repr

/-- A node record (restricted to the fields the normalizer consumes). -/
structure Node where
  name : Option String
  type : Option String
  description : Option String
  actions : Option (List Action)
deriving DecidableEq, Repr

structure DerivedOps where
  opKey : Option String
  operations : List Operation
  actionParams : List Action
  operationSelector : Option Action
deriving DecidableEq, Repr

/-- JavaScript truthiness of an optional string field. -/
def truthyS : Option String → Bool
  | some s => s ≠ ""
  | none => false

def OP_SELECTOR_FALLBACK : String := "operation"

/-- `String(first.name || OP_SELECTOR_FALLBACK)`. -/
def orFallback : Option String → String
  | some s => if s = "" then OP_SELECTOR_FALLBACK else s
  | none => OP_SELECTOR_FALLBACK

/-- The per-shape raw/label/description items of the operation maps. -/
def selectorItems (opts : List NodeOpt) : List (String × Option String × Option String) :=
  opts.map (fun o => (o.name.getD "", o.label, o.description))

def operationItems (acts : List Action) : List (String × Option String × Option String) :=
  acts.map (fun a => (a.operation.getD "", a.label, a.description))

def nameItems (acts : List Action) : List (String × Option String × Option String) :=
  acts.map (fun a => (a.name.getD "", a.label, a.description))

/-- The shared operation-construction loop: empty raw ids are filtered out
(the `.filter(Boolean)`), raw ids that are already valid identifiers are used
unchanged, the rest go through `toSafeIdentifier` with the shared `used`
set. -/
def mkOpsGo (used : List String) :
    List (String × Option String × Option String) → List Operation
  | [] => []
  | (raw, lbl, desc) :: rest =>
    if raw = "" then mkOpsGo used rest
    else
      let cu := if isValidIdentifier raw then (raw, used) else toSafeIdentifier raw used
      ⟨raw, cu.1, raw, lbl, desc⟩ :: mkOpsGo cu.2 rest

def mkOps (items : List (String × Option String × Option String)) : List Operation :=
  mkOpsGo [] items

/-- The single implicit `run` operation. -/
def runOperation (node : Node) : Operation :=
  ⟨"run", "run", "run", some "Run", node.description⟩

/-- `deriveOperations(node)`: detect one of the four action shapes on the
first action entry and derive the operation list. -/
def deriveOperations (node : Node) : DerivedOps :=
  match node.actions with
  | none => ⟨none, [runOperation node], [], none⟩
  | some [] => ⟨none, [runOperation node], [], none⟩
  | some (first :: rest) =>
    if truthyS first.type ∧ first.options.isSome ∧ truthyS first.name then
      ⟨some (orFallback first.name), mkOps (selectorItems (first.options.getD [])),
        first :: rest, some first⟩
    else if first.operation.isSome then
      ⟨some OP_SELECTOR_FALLBACK, mkOps (operationItems (first :: rest)), [], none⟩
    else if first.name.isSome then
      ⟨some OP_SELECTOR_FALLBACK, mkOps (nameItems (first :: rest)), [], none⟩
    else
      ⟨none, [runOperation node], first :: rest, none⟩

/-! ### C7 -/

/-- The operations whose raw names needed conversion: exactly those not
already valid identifiers (the `call` of every other operation is its raw
name, used unchanged). -/
def convertedOps (ops : List Operation) : List Operation :=
  ops.filter (fun op => !isValidIdentifier op.raw)

/-- Through the shared loop, the calls of the converted operations are
pairwise distinct and outside the incoming `used` set, for every item list —
including mixed ones where valid-identifier raw names (which bypass `used`)
are interleaved with converted ones. -/
theorem mkOpsGo_converted_nodup (items : List (String × Option String × Option String)) :
    ∀ used : List String,
    ((convertedOps (mkOpsGo used items)).map (fun op => op.call)).Nodup ∧
    (∀ c ∈ (convertedOps (mkOpsGo used items)).map (fun op => op.call), c ∉ used) := by
  induction items with
  | nil => intro used; simp [mkOpsGo, convertedOps]
  | cons it rest ih =>
    obtain ⟨raw, lbl, desc⟩ := it
    intro used
    by_cases hraw : raw = ""
    · simp only [mkOpsGo, if_pos hraw]
      exact ih used
    · by_cases hv : isValidIdentifier raw = true
      · -- a valid-identifier raw keeps its name, is excluded from the
        -- converted subset, and leaves `used` untouched
        simp only [mkOpsGo, if_neg hraw, hv, if_true]

        have hdrop : convertedOps (⟨raw, raw, raw, lbl, desc⟩ :: mkOpsGo used rest)
            = convertedOps (mkOpsGo used rest) := by
          unfold convertedOps
          rw [List.filter_cons_of_neg]
          simp [hv]
        rw [hdrop]
        exact ih used
      · have hv' : isValidIdentifier raw = false := by simpa using hv
        simp only [mkOpsGo, if_neg hraw, hv', Bool.false_eq_true, if_false]
        obtain ⟨hfresh, hused⟩ := toSafeIdentifier_fresh raw used
        have htail := ih (toSafeIdentifier raw used).2
        rw [hused] at htail
        rw [hused]
        have hkeep : convertedOps
              (⟨raw, (toSafeIdentifier raw used).1, raw, lbl, desc⟩
                :: mkOpsGo ((toSafeIdentifier raw used).1 :: used) rest)
            = ⟨raw, (toSafeIdentifier raw used).1, raw, lbl, desc⟩
              :: convertedOps (mkOpsGo ((toSafeIdentifier raw used).1 :: used) rest) := by
          unfold convertedOps
          rw [List.filter_cons_of_pos]
          simp [hv']
        rw [hkeep, List.map_cons]
        constructor
        · rw [List.nodup_cons]
          refine ⟨fun hc => ?_, htail.1⟩
          exact (htail.2 _ hc) (List.mem_cons_self _ _)
        · intro c hc
          rcases List.mem_cons.mp hc with hc | hc
          · rw [hc]; exact hfresh
          · intro hcu
            exact (htail.2 c hc) (List.mem_cons_of_mem _ hcu)

/-- A node with two operations both named by the already-valid identifier
`get`: such raw ids bypass the `used` set. -/
def c7Node : Node :=
  { name := some "n", type := none, description := none,
    actions := some
      [⟨none, some "get", none, none, none, none⟩,
       ⟨none, some "get", none, none, none, none⟩] }

/-- C7 counterexample: the derived `call` identifiers of `c7Node` are not
pairwise distinct — a raw name that is already a valid identifier is used
unchanged without consulting or updating the per-node `used` set, so two
operations named `get` collide. -/
theorem c7_duplicate_calls_cex :
    ¬ (((deriveOperations c7Node).operations.map (fun op => op.call)).Nodup) := by
  decide

/-- C7 (amended): for every input node record — including mixed ones, where
raw names that are already valid identifiers (used unchanged, bypassing the
`used` set, possibly colliding) coexist with raw names needing conversion —
the call identifiers of the converted operations are pairwise distinct
within the node: they all pass through `toSafeIdentifier` with the node's
shared `used` set, and the incrementing numeric disambiguator keeps them
distinct.  The scope is per node (the `used` set is created per
derivation), never global. -/
theorem c7_amended_converted_calls_nodup (node : Node) :
    ((convertedOps (deriveOperations node).operations).map (fun op => op.call)).Nodup := by
  have hrun : ((convertedOps [runOperation node]).map (fun op => op.call)).Nodup := by
    unfold convertedOps
    rw [List.filter_cons_of_neg]
    · simp
    · show ¬((!isValidIdentifier "run") = true)
      decide
  cases hact : node.actions with
  | none =>
    simp only [deriveOperations, hact]
    exact hrun
  | some acts =>
    cases acts with
    | nil =>
      simp only [deriveOperations, hact]
      exact hrun
    | cons first rest =>
      simp only [deriveOperations, hact]
      by_cases h1 : truthyS first.type = true ∧ first.options.isSome = true ∧
          truthyS first.name = true
      · rw [if_pos h1]
        exact (mkOpsGo_converted_nodup _ []).1
      · rw [if_neg h1]
        by_cases h2 : first.operation.isSome = true
        · rw [if_pos h2]
          exact (mkOpsGo_converted_nodup _ []).1
        · rw [if_neg h2]
          by_cases h3 : first.name.isSome = true
          · rw [if_pos h3]
            exact (mkOpsGo_converted_nodup _ []).1
          · rw [if_neg h3]
            exact hrun

/-- A mixed node: the raw name `get` is already a valid identifier, the raw
names `do thing` and `make x` need conversion. -/
def c7MixedNode : Node :=
  { name := some "n", type := none, description := none,
    actions := some
      [⟨none, some "get", none, none, none, none⟩,
       ⟨none, some "do thing", none, none, none, none⟩,
       ⟨none, some "make x", none, none, none, none⟩] }

/-- On the mixed node, the valid raw keeps its name and the two converted
raws receive pairwise-distinct camel-cased calls. -/
theorem c7_mixed_node_example :
    ((deriveOperations c7MixedNode).operations.map (fun op => op.call))
      = ["get", "doThing", "makeX"]
    ∧ ((convertedOps (deriveOperations c7MixedNode).operations).map (fun op => op.call))
      = ["doThing", "makeX"] := by
  constructor
  · decide
  · decide

/-! ## Schema Normalizer: node normalization and bulk ingestion -/

/-- The normalized NodeEntry (restricted to the fields the claims consume;
`methods` copies the operations' `{call, path, raw, label, description}`). -/
structure NodeEntry where
  rawName : String
  sdkName : String
  type : Option String
  description : Option String
  opKey : Option String
  operationSelector : Option Action
  operations : List Operation
  actionParams : List Action
  methods : List Operation
  actions : List Action
deriving DecidableEq, Repr

/-- `normalizeNode(node)`: `null` when the record has no usable name. -/
def normalizeNode (node : Node) : Option NodeEntry :=
  let rawName := node.name.getD ""
  if rawName = "" then none
  else
    let sdkName := if isValidIdentifier rawName then rawName
      else (toSafeIdentifier rawName []).1
    let d := deriveOperations node
    some
      { rawName := rawName, sdkName := sdkName, type := node.type,
        description := node.description, opKey := d.opKey,
        operationSelector := d.operationSelector, operations := d.operations,
        actionParams := d.actionParams,
        methods := d.operations.map
          (fun op => ⟨op.raw, op.call, op.path, op.label, op.description⟩),
        actions := node.actions.getD [] }

/-- Uppercase hexadecimal digit, as used by `encodeURIComponent`. -/
def hexDigit (n : Nat) : Char :=
  if n < 10 then Char.ofNat (48 + n) else Char.ofNat (55 + n)

/-- The characters `encodeURIComponent` leaves unescaped. -/
def isUnescapedURI (c : Char) : Bool :=
  c.isAlphanum || c = '-' || c = '_' || c = '.' || c = '!' || c = Char.ofNat 126 ||
  c = Char.ofNat 42 || c = Char.ofNat 39 || c = '(' || c = ')'

/-- UTF-8 bytes of a character. -/
def utf8Bytes (c : Char) : List Nat :=
  let n := c.toNat
  if n < 128 then [n]
  else if n < 2048 then [192 + n / 64, 128 + n % 64]
  else if n < 65536 then [224 + n / 4096, 128 + (n / 64) % 64, 128 + n % 64]
  else [240 + n / 262144, 128 + (n / 4096) % 64, 128 + (n / 64) % 64, 128 + n % 64]

def pctEncodeChar (c : Char) : List Char :=
  if isUnescapedURI c then [c]
  else ((utf8Bytes c).map (fun b => ['%', hexDigit (b / 16), hexDigit (b % 16)])).flatten

def encodeURIComponent (s : String) : String :=
  ⟨(s.data.map pctEncodeChar).flatten⟩

/-- The `results` object of `useNodesRegistry`, with the Specs pushed onto
the module-level registry accumulated explicitly. -/
structure IngestResult where
  registered : Nat
  skipped : Nat
  nodes : List NodeEntry
  specs : List Spec
deriving Repr

/-- One loop iteration of `useNodesRegistry`. -/
def ingestStep (base : String) (includeNonActionNodes : Bool)
    (acc : IngestResult) (node : Node) : IngestResult :=
  match normalizeNode node with
  | none => { acc with skipped := acc.skipped + 1 }
  | some entry =>
    if includeNonActionNodes = false ∧ entry.type ≠ some "action" then
      { acc with skipped := acc.skipped + 1 }
    else
      { registered := acc.registered + 1, skipped := acc.skipped,
        nodes := acc.nodes ++ [entry],
        specs := acc.specs ++
          [use entry.sdkName (entry.methods.map (fun m => .obj m.call (some m.path)))
            (base ++ "/" ++ encodeURIComponent entry.rawName)] }

/-- `useNodesRegistry(nodesRegistryJson, endpoint, options)`: normalize every
record, skip unusable (and, when configured, non-action) ones, register a
Spec per surviving node, and return counts plus the NodeEntry list.  (In the
source an non-array argument throws; the input here is a list by type.  The
`bySdkName`/`byRawName` index insertions carry no information beyond
`nodes`.) -/
def useNodesRegistry (nodesRegistryJson : List Node) (endpoint : String)
    (includeNonActionNodes : Bool := true) : IngestResult :=
  let base := stripTrailSlash endpoint
  nodesRegistryJson.foldl (ingestStep base includeNonActionNodes) ⟨0, 0, [], []⟩

/-! ### C10 -/

theorem ingest_foldl_invariant (base : String) (inc : Bool) (l : List Node) :
    ∀ acc : IngestResult,
      (l.foldl (ingestStep base inc) acc).registered
          + (l.foldl (ingestStep base inc) acc).skipped
        = acc.registered + acc.skipped + l.length
      ∧ (l.foldl (ingestStep base inc) acc).nodes.length + acc.registered
        = (l.foldl (ingestStep base inc) acc).registered + acc.nodes.length := by
  induction l with
  | nil =>
    intro acc
    refine ⟨?_, ?_⟩ <;> (simp only [List.foldl_nil, List.length_nil]; omega)
  | cons node l ih =>
    intro acc
    have hstep : (ingestStep base inc acc node).registered
          + (ingestStep base inc acc node).skipped = acc.registered + acc.skipped + 1
        ∧ (ingestStep base inc acc node).nodes.length + acc.registered
          = (ingestStep base inc acc node).registered + acc.nodes.length := by
      cases hn : normalizeNode node with
      | none =>
        have hred : ingestStep base inc acc node = { acc with skipped := acc.skipped + 1 } := by
          unfold ingestStep
          rw [hn]
        rw [hred]
        refine ⟨?_, ?_⟩ <;> (dsimp only; omega)
      | some entry =>
        by_cases hc : inc = false ∧ entry.type ≠ some "action"
        · have hred : ingestStep base inc acc node
              = { acc with skipped := acc.skipped + 1 } := by
            unfold ingestStep
            rw [hn]
            dsimp only
            rw [if_pos hc]
          rw [hred]
          refine ⟨?_, ?_⟩ <;> (dsimp only; omega)
        · have hred : ingestStep base inc acc node
              = { registered := acc.registered + 1, skipped := acc.skipped,
                  nodes := acc.nodes ++ [entry],
                  specs := acc.specs ++
                    [use entry.sdkName
                      (entry.methods.map (fun m => .obj m.call (some m.path)))
                      (base ++ "/" ++ encodeURIComponent entry.rawName)] } := by
            unfold ingestStep
            rw [hn]
            dsimp only
            rw [if_neg hc]
          rw [hred]
          refine ⟨?_, ?_⟩
          · dsimp only
            omega
          · dsimp only
            simp only [List.length_append, List.length_cons, List.length_nil]
            omega
    have hl := ih (ingestStep base inc acc node)
    constructor
    · show (List.foldl (ingestStep base inc) (ingestStep base inc acc node) l).registered
          + (List.foldl (ingestStep base inc) (ingestStep base inc acc node) l).skipped = _
      rw [hl.1]
      simp only [List.length_cons]
      omega
    · show (List.foldl (ingestStep base inc) (ingestStep base inc acc node) l).nodes.length
          + acc.registered
        = (List.foldl (ingestStep base inc) (ingestStep base inc acc node) l).registered
          + acc.nodes.length
      have h2 := hl.2
      omega

/-- C10: bulk ingestion counts every record exactly once — registered plus
skipped equals the input length — and the returned nodes list has exactly
`registered` entries. -/
theorem c10_ingest_counts (nodesRegistryJson : List Node) (endpoint : String) (inc : Bool) :
    (useNodesRegistry nodesRegistryJson endpoint inc).registered
        + (useNodesRegistry nodesRegistryJson endpoint inc).skipped
      = nodesRegistryJson.length
    ∧ (useNodesRegistry nodesRegistryJson endpoint inc).nodes.length
      = (useNodesRegistry nodesRegistryJson endpoint inc).registered := by
  have h := ingest_foldl_invariant (stripTrailSlash endpoint) inc nodesRegistryJson ⟨0, 0, [], []⟩
  simp only [useNodesRegistry]
  refine ⟨?_, ?_⟩
  · have h1 := h.1
    simpa using h1
  · have h2 := h.2
    simp at h2
    omega

/-! ## Type Declaration Generator: `tsTypeForParam`

A schema parameter, restricted to the fields `tsTypeForParam` reads: `type`,
`name`, `options` (selector options or collection fields), `items` and
`array` (the two array shapes), and the `optional`/`required` flags. -/

inductive Param : Type where
  | mk (type : Option String) (name : Option String) (options : Option (List Param))
       (items : Option Param) (array : Option (List Param))
       (optionalFlag : Bool) (required : Option Bool) : Param

def Param.type : Param → Option String
  | .mk t _ _ _ _ _ _ => t

def Param.name : Param → Option String
  | .mk _ n _ _ _ _ _ => n

def Param.options : Param → Option (List Param)
  | .mk _ _ o _ _ _ _ => o

def Param.items : Param → Option Param
  | .mk _ _ _ i _ _ _ => i

def Param.array : Param → Option (List Param)
  | .mk _ _ _ _ a _ _ => a

def Param.optionalFlag : Param → Bool
  | .mk _ _ _ _ _ f _ => f

def Param.required : Param → Option Bool
  | .mk _ _ _ _ _ _ r => r

/-- Lowercase hexadecimal digit of `JSON.stringify`'s `\u00xx` escapes. -/
def hexDigitLower (n : Nat) : Char :=
  if n < 10 then Char.ofNat (48 + n) else Char.ofNat (87 + n)

/-- `JSON.stringify`'s escaping of one string character. -/
def jsonEscapeChar (c : Char) : List Char :=
  if c = '"' then [Char.ofNat 92, '"']
  else if c = Char.ofNat 92 then [Char.ofNat 92, Char.ofNat 92]
  else if c = Char.ofNat 8 then [Char.ofNat 92, 'b']
  else if c = Char.ofNat 9 then [Char.ofNat 92, 't']
  else if c = '\n' then [Char.ofNat 92, 'n']
  else if c = Char.ofNat 12 then [Char.ofNat 92, 'f']
  else if c = Char.ofNat 13 then [Char.ofNat 92, 'r']
  else if c.toNat < 32 then
    [Char.ofNat 92, 'u', '0', '0', hexDigitLower (c.toNat / 16), hexDigitLower (c.toNat % 16)]
  else [c]

/-- `JSON.stringify` of a string. -/
def jsonQuote (s : String) : String :=
  ⟨'"' :: (s.data.map jsonEscapeChar).flatten ++ ['"']⟩

/-- First-occurrence deduplication (`[...new Set(xs)]`). -/
def dedupFirst : List String → List String
  | [] => []
  | s :: rest => s :: (dedupFirst rest).filter (fun t => t ≠ s)

/-- `[...new Set(opts.map(o => o?.name).filter(Boolean))]`. -/
def optionNames (opts : List Param) : List String :=
  dedupFirst ((opts.map (fun o => o.name.getD "")).filter (fun s => s ≠ ""))

/-- `Map.set` of the field-merge map of the UI array shape: an existing name
is updated in place (unioning the type when the previous entry is truthy),
a new name is appended. -/
def addField (fs : List (String × String)) (nm ft : String) : List (String × String) :=
  match objGet fs nm with
  | some prev =>
    fs.map (fun q => if q.1 = nm then (nm, if prev = "" then ft else prev ++ " | " ++ ft) else q)
  | none => fs ++ [(nm, ft)]

/-- A recursion-depth budget strictly dominating the nesting depth of a
parameter (every direct child has a strictly smaller budget plus one). -/
def paramFuel : Param → Nat
  | .mk _ _ opts items arr _ _ =>
    1 + (match opts with
         | some l => l.attach.foldl (fun acc g => acc + paramFuel g.1 + 1) 0
         | none => 0)
      + (match items with
         | some it => paramFuel it + 1
         | none => 0)
      + (match arr with
         | some l => l.attach.foldl (fun acc g => acc + paramFuel g.1 + 1) 0
         | none => 0)
termination_by p => sizeOf p
decreasing_by
  all_goals simp_wf
  all_goals first
    | (have hmem := List.sizeOf_lt_of_mem g.2; omega)
    | omega

/-- `tsTypeForParam` with an explicit recursion-depth budget;
`paramFuel` strictly exceeds every chain of recursive calls, so the
budget-exhausted fallback is never reached. -/
def tsTypeForParamGo : Nat → Param → String
  | 0, _ => "any"
  | fuel + 1, p =>
    let t := p.type
    if t = some "string" ∨ t = some "code" then "string"
    else if t = some "number" then "number"
    else if t = some "boolean" then "boolean"
    else if t = some "date" then "string | Date"
    else if t = some "json" then "AnyRecord | JSONValue"
    else if t = some "object" then "AnyRecord"
    else if t = some "file" then "Blob | File | string"
    else if t = some "string[]" then "string[]"
    else if t = some "options" then
      let names := optionNames (p.options.getD [])
      if names = [] then "string"
      else if 250 < names.length then "string"
      else String.intercalate " | " (names.map jsonQuote)
    else if t = some "asyncOptions" then "string"
    else if t = some "array" then
      let fallback :=
        match p.array with
        | some arr =>
          let flds := arr.foldl (fun fs f =>
            if f.name.getD "" = "" then fs
            else addField fs (f.name.getD "") (tsTypeForParamGo fuel f)) []
          "Array<\x7b " ++ String.intercalate " "
            (flds.map (fun q => jsonQuote q.1 ++ "?: " ++ q.2 ++ ";")) ++ " \x7d>"
        | none => "any[]"
      match p.items with
      | some it =>
        if truthyS it.type then "Array<" ++ tsTypeForParamGo fuel it ++ ">" else fallback
      | none => fallback
    else if t = some "collection" then
      match p.options with
      | none => "AnyRecord"
      | some opts =>
        let lines := (opts.filter (fun f => f.name.getD "" ≠ "")).map (fun f =>
          jsonQuote (f.name.getD "")
            ++ (if f.optionalFlag || f.required = some false then "?:" else ":")
            ++ " " ++ tsTypeForParamGo fuel f ++ ";")
        "\x7b " ++ String.intercalate " " lines ++ " \x7d"
    else "any"

/-- `tsTypeForParam(p)`: map a schema parameter to its TypeScript type. -/
def tsTypeForParam (p : Param) : String := tsTypeForParamGo (paramFuel p + 1) p

/-! ### C9 -/

/-- C9: an enumerated-choice (`options`-typed) parameter becomes a union of
its (deduplicated, truthy) literal option-name values, unless the choice
count exceeds 250, in which case it degrades to the plain `string` type. -/
theorem c9_options_union (p : Param) (h : p.type = some "options") :
    (optionNames (p.options.getD []) ≠ [] →
      (optionNames (p.options.getD [])).length ≤ 250 →
      tsTypeForParam p
        = String.intercalate " | " ((optionNames (p.options.getD [])).map jsonQuote))
    ∧ (250 < (optionNames (p.options.getD [])).length → tsTypeForParam p = "string") := by
  have hrw : tsTypeForParam p =
      (if optionNames (p.options.getD []) = [] then "string"
       else if 250 < (optionNames (p.options.getD [])).length then "string"
       else String.intercalate " | " ((optionNames (p.options.getD [])).map jsonQuote)) := by
    show tsTypeForParamGo (paramFuel p + 1) p = _
    simp only [tsTypeForParamGo]
    rw [h]
    rw [if_neg (by decide), if_neg (by decide), if_neg (by decide), if_neg (by decide),
        if_neg (by decide), if_neg (by decide), if_neg (by decide), if_neg (by decide),
        if_pos rfl]
  constructor
  · intro h1 h2
    rw [hrw, if_neg h1, if_neg (by omega)]
  · intro h1
    rw [hrw]
    by_cases h0 : optionNames (p.options.getD []) = []
    · rw [if_pos h0]
    · rw [if_neg h0, if_pos h1]

/-- A concrete options-typed parameter with two named choices. -/
def c9Param : Param :=
  .mk (some "options") none
    (some [.mk none (some "a") none none none false none,
           .mk none (some "b") none none none false none])
    none none false none

/-- C9 witness at the concrete two-choice parameter. -/
theorem c9_witness :
    c9Param.type = some "options"
    ∧ ((optionNames (c9Param.options.getD []) ≠ [] →
        (optionNames (c9Param.options.getD [])).length ≤ 250 →
        tsTypeForParam c9Param
          = String.intercalate " | " ((optionNames (c9Param.options.getD [])).map jsonQuote))
      ∧ (250 < (optionNames (c9Param.options.getD [])).length →
        tsTypeForParam c9Param = "string")) :=
  ⟨rfl, c9_options_union c9Param rfl⟩

end WeaveCdk
